import Mathlib

/-!
Verification of the Optima core numerical engine against its specification.

The C++ sources are shallowly embedded: dense matrices become total
functions on natural indices (entries outside the recorded dimensions are
irrelevant and never inspected by the theorems), IEEE doubles become exact
rationals, and a NaN-carrying double becomes an optional rational where
the empty value plays the role of NaN.  External collaborators that the
specification declares out of scope (the Eigen LU kernels, the saddle
point solver backend, user callbacks) enter as explicitly quantified data
constrained by their documented contracts.
-/

namespace Optima

/-- Dense matrix: a total function on natural row/column indices. -/
def Mat : Type := ℕ → ℕ → ℚ

/-- Dense vector: a total function on natural indices. -/
def Vec : Type := ℕ → ℚ

/-- Product of an `a × k` and a `k × b` matrix: the inner dimension `k`
is passed explicitly since matrices are total functions. -/
def mmul (k : ℕ) (M N : Mat) : Mat :=
  fun i j => ∑ t ∈ Finset.range k, M i t * N t j

/-- Entrywise equality of two matrices on the leading `m × n` block. -/
def EqOn (m n : ℕ) (M N : Mat) : Prop :=
  ∀ i < m, ∀ j < n, M i j = N i j

instance EqOn.instDecidable (m n : ℕ) (M N : Mat) : Decidable (EqOn m n M N) :=
  inferInstanceAs (Decidable (∀ i, i < m → ∀ j, j < n → M i j = N i j))

/-- Column permutation of `A` by the index map `q` (the `Q` array of
`Echelonizer`): column `j` of the result is column `q j` of `A`. -/
def colPerm (q : ℕ → ℕ) (A : Mat) : Mat := fun i j => A i (q j)

/-- Row permutation matrix for the index map `p` (the `P` array of the
full-pivoting LU), so that `(permMat p * B) i j = B (p i) j`. -/
def permMat (p : ℕ → ℕ) : Mat := fun i t => if t = p i then 1 else 0

/-- The canonical matrix `C = [I | S]` padded with zero rows below row
`r`, as assembled by `Echelonizer::C` (Echelonizer.cpp:389-397). -/
def canon (r : ℕ) (S : Mat) : Mat := fun i j =>
  if i < r then (if j < r then (if j = i then 1 else 0) else S i (j - r)) else 0

/-- The row mixer `R` built by `Echelonizer::Impl::compute`
(Echelonizer.cpp:134-138): start from the permutation matrix `P`, apply
the inverse of the unit lower triangular factor `L`, then apply the
inverse of the upper-left block `Ubb` of `U` to the top `r` rows.  The
two triangular solves of the source are embedded through the inverse
matrices `Linv` and `Ubbinv` (exact arithmetic). -/
def computeR (m r : ℕ) (Linv Ubbinv : Mat) (p : ℕ → ℕ) : Mat :=
  fun i j =>
    if i < r then mmul r Ubbinv (mmul m Linv (permMat p)) i j
    else mmul m Linv (permMat p) i j

/-- The matrix `S = Ubb⁻¹ · Ubn` built by `Echelonizer::Impl::compute`
(Echelonizer.cpp:141-143), where `Ubn` is the top-right `r × (n - r)`
block of `U`. -/
def computeS (r : ℕ) (Ubbinv U : Mat) : Mat :=
  fun i k => ∑ t ∈ Finset.range r, Ubbinv i t * U t (r + k)

/-- `Echelonizer::Impl::updateWithSwapBasicVariable`
(Echelonizer.cpp:183-193), action on `R`: row `ib` is scaled by
`aux = 1 / S(ib, jn)` and then subtracted, weighted by `S(i, jn)`, from
every other row `i < r` (`m = S.rows()` equals `r` in the source). -/
def swapR (R S : Mat) (r ib jn : ℕ) : Mat := fun i j =>
  if i = ib then R ib j / S ib jn
  else if i < r then R i j - S i jn * (R ib j / S ib jn)
  else R i j

/-- `Echelonizer::Impl::updateWithSwapBasicVariable`
(Echelonizer.cpp:195-200), action on `S`: same row operations as on `R`,
after which column `jn` is overwritten with `-M * aux` (`M` the saved old
column `jn`) and entry `(ib, jn)` with `aux = 1 / S(ib, jn)`. -/
def swapS (S : Mat) (r ib jn : ℕ) : Mat := fun i j =>
  if j = jn then (if i = ib then 1 / S ib jn else -(S i jn / S ib jn))
  else if i = ib then S ib j / S ib jn
  else S i j - S i jn * (S ib j / S ib jn)

/-- Exchange of the two positions `a` and `b` in an index map, as done on
`Q` by `std::swap(Q[ib], Q[m + in])` (Echelonizer.cpp:203). -/
def swapNat (a b k : ℕ) : ℕ := if k = a then b else if k = b then a else k

lemma mmul_permMat (m : ℕ) (p : ℕ → ℕ) (B : Mat) (i j : ℕ) (hp : p i < m) :
    mmul m (permMat p) B i j = B (p i) j := by
  unfold mmul permMat
  simp only [ite_mul, one_mul, zero_mul]
  rw [Finset.sum_ite_eq' (Finset.range m) (p i) (fun t => B t j)]
  simp [hp]

lemma mmul_assoc (a b : ℕ) (M N P : Mat) :
    mmul a (mmul b M N) P = mmul b M (mmul a N P) := by
  funext i j
  unfold mmul
  simp only [Finset.sum_mul, Finset.mul_sum, mul_assoc]
  exact Finset.sum_comm

/-- After the two triangular solves of `compute`, the matrix
`Linv · P · B` agrees with the upper factor `U` on the `m × n` block. -/
lemma linvP_mul_eq_U (m n : ℕ) (B L U Linv : Mat) (p : ℕ → ℕ)
    (hp : ∀ i < m, p i < m)
    (hLU : ∀ i < m, ∀ j < n, B (p i) j = mmul m L U i j)
    (hLinv : ∀ i < m, ∀ t < m, mmul m Linv L i t = if i = t then 1 else 0) :
    ∀ i < m, ∀ j < n, mmul m (mmul m Linv (permMat p)) B i j = U i j := by
  intro i hi j hj
  rw [mmul_assoc]
  have hPB : ∀ t < m, mmul m (permMat p) B t j = mmul m L U t j := by
    intro t ht
    rw [mmul_permMat m p B t j (hp t ht)]
    exact hLU t ht j hj
  have h1 : mmul m Linv (mmul m (permMat p) B) i j
      = mmul m Linv (mmul m L U) i j := by
    show (∑ t ∈ Finset.range m, Linv i t * mmul m (permMat p) B t j)
        = ∑ t ∈ Finset.range m, Linv i t * mmul m L U t j
    refine Finset.sum_congr rfl (fun t ht => ?_)
    rw [Finset.mem_range] at ht
    rw [hPB t ht]
  rw [h1, ← mmul_assoc]
  show (∑ t ∈ Finset.range m, mmul m Linv L i t * U t j) = U i j
  have h2 : ∀ t ∈ Finset.range m,
      mmul m Linv L i t * U t j = (if i = t then 1 else 0) * U t j := by
    intro t ht
    rw [Finset.mem_range] at ht
    rw [hLinv i hi t ht]
  rw [Finset.sum_congr rfl h2]
  simp only [ite_mul, one_mul, zero_mul]
  rw [Finset.sum_ite_eq (Finset.range m) i (fun t => U t j)]
  simp [hi]

/-- Core of `Echelonizer::Impl::compute` (Echelonizer.cpp:99-160): from a
full-pivoting LU factorization `P · A · Q = L · U` of rank `r` (the rows
of `U` from row `r` on vanish), the assembled `R` and `S` satisfy the
canonical identity `R · A · Q = [I | S]` padded with `m - r` zero rows. -/
lemma compute_canonical (m n r : ℕ) (A L U Linv Ubbinv : Mat) (p q : ℕ → ℕ)
    (hrm : r ≤ m)
    (hp : ∀ i < m, p i < m)
    (hLU : ∀ i < m, ∀ j < n, colPerm q A (p i) j = mmul m L U i j)
    (hLinv : ∀ i < m, ∀ t < m, mmul m Linv L i t = if i = t then 1 else 0)
    (hUbb : ∀ i < r, ∀ j < r, mmul r Ubbinv U i j = if j = i then 1 else 0)
    (hU0 : ∀ i < m, r ≤ i → ∀ j < n, U i j = 0) :
    EqOn m n (mmul m (computeR m r Linv Ubbinv p) (colPerm q A))
      (canon r (computeS r Ubbinv U)) := by
  intro i hi j hj
  have hU := linvP_mul_eq_U m n (colPerm q A) L U Linv p hp hLU hLinv
  by_cases hir : i < r
  · have hrow : ∀ t, computeR m r Linv Ubbinv p i t
        = mmul r Ubbinv (mmul m Linv (permMat p)) i t := by
      intro t; simp [computeR, hir]
    have hL : mmul m (computeR m r Linv Ubbinv p) (colPerm q A) i j
        = mmul r Ubbinv (mmul m (mmul m Linv (permMat p)) (colPerm q A)) i j := by
      show (∑ t ∈ Finset.range m,
          computeR m r Linv Ubbinv p i t * colPerm q A t j) = _
      rw [Finset.sum_congr rfl (fun t _ => by rw [hrow t])]
      exact congrFun (congrFun
        (mmul_assoc m r Ubbinv (mmul m Linv (permMat p)) (colPerm q A)) i) j
    rw [hL]
    have hcol : mmul r Ubbinv (mmul m (mmul m Linv (permMat p)) (colPerm q A)) i j
        = ∑ s ∈ Finset.range r, Ubbinv i s * U s j := by
      show (∑ s ∈ Finset.range r,
          Ubbinv i s * mmul m (mmul m Linv (permMat p)) (colPerm q A) s j) = _
      refine Finset.sum_congr rfl (fun s hs => ?_)
      rw [Finset.mem_range] at hs
      rw [hU s (lt_of_lt_of_le hs hrm) j hj]
    rw [hcol]
    by_cases hjr : j < r
    · have hd : (∑ s ∈ Finset.range r, Ubbinv i s * U s j)
          = if j = i then 1 else 0 := hUbb i hir j hjr
      rw [hd]
      simp [canon, hir, hjr]
    · have hrj : r + (j - r) = j := by omega
      have hs : (∑ s ∈ Finset.range r, Ubbinv i s * U s j)
          = computeS r Ubbinv U i (j - r) := by
        unfold computeS
        rw [hrj]
      rw [hs]
      simp [canon, hir, hjr]
  · have hrow : ∀ t, computeR m r Linv Ubbinv p i t
        = mmul m Linv (permMat p) i t := by
      intro t; simp [computeR, hir]
    have hL : mmul m (computeR m r Linv Ubbinv p) (colPerm q A) i j
        = mmul m (mmul m Linv (permMat p)) (colPerm q A) i j := by
      show (∑ t ∈ Finset.range m,
          computeR m r Linv Ubbinv p i t * colPerm q A t j) = _
      exact Finset.sum_congr rfl (fun t _ => by rw [hrow t])
    rw [hL, hU i hi j hj, hU0 i hi (le_of_not_lt hir) j hj]
    simp [canon, hir]

/-- The rows of `swapR R S r ib jn` are linear combinations of the rows of
`R`, so its product with any `B` is the same combination of rows of
`R · B`. -/
lemma mmul_swapR (m r ib jn : ℕ) (R S B : Mat) (i j : ℕ) :
    mmul m (swapR R S r ib jn) B i j =
      if i = ib then mmul m R B ib j / S ib jn
      else if i < r then
        mmul m R B i j - S i jn * (mmul m R B ib j / S ib jn)
      else mmul m R B i j := by
  by_cases hi : i = ib
  · subst hi
    rw [if_pos rfl]
    show (∑ t ∈ Finset.range m, swapR R S r i jn i t * B t j) = _
    have : ∀ t, swapR R S r i jn i t = R i t / S i jn := by
      intro t; simp [swapR]
    rw [Finset.sum_congr rfl (fun t _ => by rw [this t])]
    unfold mmul
    rw [Finset.sum_div]
    exact Finset.sum_congr rfl (fun t _ => div_mul_eq_mul_div _ _ _)
  · rw [if_neg hi]
    by_cases hir : i < r
    · rw [if_pos hir]
      show (∑ t ∈ Finset.range m, swapR R S r ib jn i t * B t j) = _
      have : ∀ t, swapR R S r ib jn i t
          = R i t - S i jn * (R ib t / S ib jn) := by
        intro t; simp [swapR, hi, hir]
      rw [Finset.sum_congr rfl (fun t _ => by rw [this t, sub_mul])]
      rw [Finset.sum_sub_distrib]
      congr 1
      trans ∑ t ∈ Finset.range m, S i jn * (R ib t * B t j / S ib jn)
      · refine Finset.sum_congr rfl (fun t _ => ?_)
        rw [mul_assoc, div_mul_eq_mul_div]
      · rw [← Finset.mul_sum, ← Finset.sum_div]
        rfl
    · rw [if_neg hir]
      show (∑ t ∈ Finset.range m, swapR R S r ib jn i t * B t j) = _
      have : ∀ t, swapR R S r ib jn i t = R i t := by
        intro t; simp [swapR, hi, hir]
      exact Finset.sum_congr rfl (fun t _ => by rw [this t])

/-- Core of `Echelonizer::Impl::updateWithSwapBasicVariable`
(Echelonizer.cpp:163-204): a legal swap of basic row `ib` with non-basic
column `jn` (pivot above the threshold) preserves the canonical identity
`R · A · Q = [I | S]` padded with zero rows. -/
lemma swap_preserves_canonical (m n r ib jn : ℕ) (B R S : Mat) (θ : ℚ)
    (hrm : r ≤ m) (hmn : m ≤ n) (hib : ib < r) (hjn : jn < n - r)
    (hθ : 0 ≤ θ) (hpiv : θ < |S ib jn|)
    (hid : EqOn m n (mmul m R B) (canon r S)) :
    EqOn m n
      (mmul m (swapR R S r ib jn) (fun a b => B a (swapNat ib (r + jn) b)))
      (canon r (swapS S r ib jn)) := by
  have hc : S ib jn ≠ 0 := by
    intro h
    rw [h, abs_zero] at hpiv
    exact absurd hpiv (not_lt.mpr hθ)
  have hrjn : r + jn < n := by omega
  intro i hi j hj
  have hσj : swapNat ib (r + jn) j < n := by
    unfold swapNat
    split_ifs <;> omega
  have hL : mmul m (swapR R S r ib jn)
        (fun a b => B a (swapNat ib (r + jn) b)) i j
      = mmul m (swapR R S r ib jn) B i (swapNat ib (r + jn) j) := rfl
  rw [hL, mmul_swapR]
  rw [hid ib (by omega) _ hσj, hid i hi _ hσj]
  rcases Nat.lt_or_ge j r with hjr | hjr
  · by_cases hj1 : j = ib
    · have hs : swapNat ib (r + jn) j = r + jn := by
        unfold swapNat
        rw [if_pos hj1]
      rw [hs]
      simp only [canon, swapS, Nat.add_sub_cancel_left]
      split_ifs <;>
        first
          | rfl
          | omega
          | (rw [div_self hc]; try ring)
          | ring
          | (field_simp)
    · have hs : swapNat ib (r + jn) j = j := by
        unfold swapNat
        rw [if_neg hj1, if_neg (by omega)]
      rw [hs]
      simp only [canon, swapS, Nat.add_sub_cancel_left]
      split_ifs <;>
        first
          | rfl
          | omega
          | (rw [div_self hc]; try ring)
          | ring
          | (field_simp)
  · by_cases hj2 : j = r + jn
    · have hs : swapNat ib (r + jn) j = ib := by
        unfold swapNat
        rw [if_neg (by omega), if_pos hj2]
      rw [hs]
      simp only [canon, swapS, Nat.add_sub_cancel_left]
      split_ifs <;>
        first
          | rfl
          | omega
          | (rw [div_self hc]; try ring)
          | ring
          | (field_simp)
    · have hs : swapNat ib (r + jn) j = j := by
        unfold swapNat
        rw [if_neg (by omega), if_neg hj2]
      rw [hs]
      simp only [canon, swapS, Nat.add_sub_cancel_left]
      split_ifs <;>
        first
          | rfl
          | omega
          | (rw [div_self hc]; try ring)
          | ring
          | (field_simp)

/-- C1: after `Echelonizer::compute(A)` on a matrix with at least as many
columns as rows and full-pivoting LU data of rank `r`, the canonical
identity `R · A · Q = [I | S]` padded with `ny - rank` zero rows holds
(exactly: exact rational arithmetic replaces the `σ·ε` round-off
allowance), and the identity is preserved by every legal
`updateWithSwapBasicVariable(ib, jn)` — one with `ib < rank`,
`jn < n - rank` and `|S(ib, jn)|` above the threshold. -/
theorem c1_canonical_identity_compute_and_swap
    (m n r : ℕ) (A L U Linv Ubbinv : Mat) (p q : ℕ → ℕ)
    (hrm : r ≤ m) (hmn : m ≤ n)
    (hp : ∀ i < m, p i < m)
    (hLU : ∀ i < m, ∀ j < n, colPerm q A (p i) j = mmul m L U i j)
    (hLinv : ∀ i < m, ∀ t < m, mmul m Linv L i t = if i = t then 1 else 0)
    (hUbb : ∀ i < r, ∀ j < r, mmul r Ubbinv U i j = if j = i then 1 else 0)
    (hU0 : ∀ i < m, r ≤ i → ∀ j < n, U i j = 0) :
    EqOn m n (mmul m (computeR m r Linv Ubbinv p) (colPerm q A))
      (canon r (computeS r Ubbinv U))
    ∧ ∀ (R S : Mat) (q' : ℕ → ℕ) (ib jn : ℕ) (θ : ℚ),
        ib < r → jn < n - r → 0 ≤ θ → θ < |S ib jn| →
        EqOn m n (mmul m R (colPerm q' A)) (canon r S) →
        EqOn m n
          (mmul m (swapR R S r ib jn)
            (colPerm (fun k => q' (swapNat ib (r + jn) k)) A))
          (canon r (swapS S r ib jn)) := by
  constructor
  · exact compute_canonical m n r A L U Linv Ubbinv p q hrm hp hLU hLinv hUbb hU0
  · intro R S q' ib jn θ hib hjn hθ hpiv hid
    exact swap_preserves_canonical m n r ib jn (colPerm q' A) R S θ
      hrm hmn hib hjn hθ hpiv hid

/-- Concrete `1 × 2` matrix used to exercise the canonical identity. -/
def witA1 : Mat := fun i j =>
  if i = 0 ∧ j = 0 then 2 else if i = 0 ∧ j = 1 then 1 else 0

/-- Unit lower factor of the LU of `witA1` (trivial at size 1). -/
def witL1 : Mat := fun i j => if i = 0 ∧ j = 0 then 1 else 0

/-- Inverse of `witL1`. -/
def witLinv1 : Mat := fun i j => if i = 0 ∧ j = 0 then 1 else 0

/-- Upper factor of the LU of `witA1`. -/
def witU1 : Mat := witA1

/-- Inverse of the upper-left `1 × 1` block of `witU1`. -/
def witUbbinv1 : Mat := fun i j => if i = 0 ∧ j = 0 then 1/2 else 0

theorem c1_canonical_identity_witness :
    EqOn 1 2 (mmul 1 (computeR 1 1 witLinv1 witUbbinv1 id) (colPerm id witA1))
      (canon 1 (computeS 1 witUbbinv1 witU1))
    ∧ EqOn 1 2
        (mmul 1
          (swapR (computeR 1 1 witLinv1 witUbbinv1 id)
            (computeS 1 witUbbinv1 witU1) 1 0 0)
          (colPerm (fun k => id (swapNat 0 1 k)) witA1))
        (canon 1 (swapS (computeS 1 witUbbinv1 witU1) 1 0 0)) := by
  have hS : computeS 1 witUbbinv1 witU1 0 0 = 1/2 := by
    norm_num [computeS, witUbbinv1, witU1, witA1, Finset.sum_range_succ]
  have h := c1_canonical_identity_compute_and_swap 1 2 1 witA1 witL1 witU1
    witLinv1 witUbbinv1 id id (by norm_num) (by norm_num)
    (by intro i hi; simpa using hi)
    (by
      intro i hi j hj
      interval_cases i <;> interval_cases j <;>
        norm_num [colPerm, witA1, witL1, witU1, mmul, Finset.sum_range_succ])
    (by
      intro i hi t ht
      interval_cases i <;> interval_cases t <;>
        norm_num [witLinv1, witL1, mmul, Finset.sum_range_succ])
    (by
      intro i hi j hj
      interval_cases i <;> interval_cases j <;>
        norm_num [witUbbinv1, witU1, witA1, mmul, Finset.sum_range_succ])
    (by intro i hi h1i; omega)
  refine ⟨h.1, h.2 _ _ id 0 0 0 (by norm_num) (by norm_num) le_rfl ?_ h.1⟩
  rw [hS]
  rw [abs_of_pos (by norm_num)]
  norm_num

/-- State of the echelonizer manipulated by `updateWithPriorityWeights`:
the row mixer `R`, the matrix `S` and the column order `Q`. -/
structure EchState where
  R : Mat
  S : Mat
  q : ℕ → ℕ

/-- `find_nonbasic_candidate` inside
`Echelonizer::Impl::updateWithPriorityWeights` (Echelonizer.cpp:230-243):
scan the first `k` non-basic columns, skip those whose `|S(i, k)|` is at
or below the threshold, and track the column with the largest
`w[inonbasic[k]] * |S(i, k)|`; `⊥` plays the role of the initial
`-infinity` and the comparison `tmp > max` is strict, so the first
attaining column is kept. -/
def findCand (S : Mat) (θ : ℚ) (w : Vec) (q : ℕ → ℕ) (r i : ℕ) :
    ℕ → ℕ × WithBot ℚ
  | 0 => (0, ⊥)
  | k + 1 =>
    let prev := findCand S θ w q r i k
    if |S i k| ≤ θ then prev
    else if prev.2 < ((w (q (r + k)) * |S i k| : ℚ) : WithBot ℚ) then
      (k, ((w (q (r + k)) * |S i k| : ℚ) : WithBot ℚ))
    else prev

/-- One step of the greedy pass (Echelonizer.cpp:246-253): if the best
candidate weight strictly exceeds the weight of the basic variable of row
`i`, perform the swap through `updateWithSwapBasicVariable`. -/
def greedyStep (w : Vec) (θ : ℚ) (r nn : ℕ) (st : EchState) (i : ℕ) :
    EchState :=
  let c := findCand st.S θ w st.q r i nn
  if ((w (st.q i) : ℚ) : WithBot ℚ) < c.2 then
    { R := swapR st.R st.S r i c.1
      S := swapS st.S r i c.1
      q := fun k => st.q (swapNat i (r + c.1) k) }
  else st

/-- The greedy pass over the basic rows `0, …, nb-1` in order
(Echelonizer.cpp:246-253). -/
def greedyPass (w : Vec) (θ : ℚ) (r nn : ℕ) (st : EchState) : ℕ → EchState
  | 0 => st
  | i + 1 => greedyStep w θ r nn (greedyPass w θ r nn st i) i

/-- Application of the two sorting permutations to `S`, the top rows of
`R` and the two partitions of `Q` (Echelonizer.cpp:263-276): row `i` of
the new `S` (and of the top of `R`) is row `σb i` of the old one, column
`j` is column `σn j`, and the same reordering acts on the basic and
non-basic index partitions of `Q`. -/
def applySortPerms (r : ℕ) (σb σn : ℕ → ℕ) (st : EchState) : EchState :=
  { R := fun i j => if i < r then st.R (σb i) j else st.R i j
    S := fun i j => st.S (σb i) (σn j)
    q := fun k => if k < r then st.q (σb k) else st.q (r + σn (k - r)) }

/-- `Echelonizer::Impl::updateWithPriorityWeights` (Echelonizer.cpp:207-277):
the greedy pass over all `nb = r` basic rows followed by the reordering
of both partitions.  `std::sort` (Echelonizer.cpp:256-261) guarantees a
permutation that sorts the keys and nothing more, so the two permutations
`σb`, `σn` it produces are inputs of the model, constrained in the
theorems by the descending-order guarantee. -/
def updateWithPriorityWeights (w : Vec) (θ : ℚ) (r nn : ℕ)
    (σb σn : ℕ → ℕ) (st : EchState) : EchState :=
  applySortPerms r σb σn (greedyPass w θ r nn st r)

/-- The value tracked by `find_nonbasic_candidate` is the supremum of
`w[inonbasic[k]] * |S(i, k)|` over the scanned columns whose pivot
exceeds the threshold. -/
lemma findCand_snd_eq_sup (S : Mat) (θ : ℚ) (w : Vec) (q : ℕ → ℕ)
    (r i : ℕ) : ∀ k : ℕ,
    (findCand S θ w q r i k).2
      = (Finset.range k).sup
          (fun t => if θ < |S i t| then ((w (q (r + t)) * |S i t| : ℚ) : WithBot ℚ) else ⊥) := by
  intro k
  induction k with
  | zero => simp [findCand]
  | succ k ih =>
    rw [Finset.range_succ, Finset.sup_insert]
    unfold findCand
    by_cases hth : |S i k| ≤ θ
    · rw [if_pos hth, ih, if_neg (not_lt.mpr hth), bot_sup_eq]
    · rw [if_neg hth, if_pos (not_le.mp hth)]
      by_cases hcmp : (findCand S θ w q r i k).2
          < ((w (q (r + k)) * |S i k| : ℚ) : WithBot ℚ)
      · rw [if_pos hcmp]
        rw [ih] at hcmp
        exact (sup_eq_left.mpr (le_of_lt hcmp)).symm
      · rw [if_neg hcmp]
        rw [ih] at hcmp
        rw [sup_eq_right.mpr (not_lt.mp hcmp)]
        exact ih

/-- When `find_nonbasic_candidate` returns a value other than
`-infinity`, the returned column index attains it, lies in range and has
its pivot above the threshold. -/
lemma findCand_attains (S : Mat) (θ : ℚ) (w : Vec) (q : ℕ → ℕ)
    (r i : ℕ) : ∀ k : ℕ, (findCand S θ w q r i k).2 ≠ ⊥ →
    (findCand S θ w q r i k).1 < k
    ∧ θ < |S i (findCand S θ w q r i k).1|
    ∧ ((w (q (r + (findCand S θ w q r i k).1))
          * |S i (findCand S θ w q r i k).1| : ℚ) : WithBot ℚ)
        = (findCand S θ w q r i k).2 := by
  intro k
  induction k with
  | zero => intro h; exact absurd rfl h
  | succ k ih =>
    intro h
    unfold findCand at h ⊢
    by_cases hth : |S i k| ≤ θ
    · rw [if_pos hth] at h ⊢
      exact ⟨Nat.lt_succ_of_lt (ih h).1, (ih h).2.1, (ih h).2.2⟩
    · rw [if_neg hth] at h ⊢
      by_cases hcmp : (findCand S θ w q r i k).2
          < ((w (q (r + k)) * |S i k| : ℚ) : WithBot ℚ)
      · rw [if_pos hcmp] at h ⊢
        exact ⟨Nat.lt_succ_self k, not_le.mp hth, rfl⟩
      · rw [if_neg hcmp] at h ⊢
        exact ⟨Nat.lt_succ_of_lt (ih h).1, (ih h).2.1, (ih h).2.2⟩

/-- The guarantee `std::sort` gives for the basic partition
(Echelonizer.cpp:256-257): the reordering permutation `σ` arranges the
keys `w[ibasic[·]]` in descending order. -/
def SortedDescBasic (w : Vec) (q σ : ℕ → ℕ) (r : ℕ) : Prop :=
  ∀ k l, k ≤ l → l < r → w (q (σ l)) ≤ w (q (σ k))

/-- The guarantee `std::sort` gives for the non-basic partition
(Echelonizer.cpp:260-261). -/
def SortedDescNonbasic (w : Vec) (q σ : ℕ → ℕ) (r nn : ℕ) : Prop :=
  ∀ k l, k ≤ l → l < nn → w (q (r + σ l)) ≤ w (q (r + σ k))

/-- What the claim's words "stable-sorts … by descending weight" assert
of a reordering permutation: keys descending, and among equal keys the
original relative order is preserved.  This definition follows the
specification's words, to be compared with the source's `std::sort`
whose order among equal keys is unspecified. -/
def StableDescPerm (w : Vec) (q : ℕ → ℕ) (r : ℕ) (σ : ℕ → ℕ) : Prop :=
  (∀ k l, k ≤ l → l < r → w (q (σ l)) ≤ w (q (σ k)))
  ∧ (∀ k l, k < l → l < r → w (q (σ k)) = w (q (σ l)) → σ k < σ l)

/-- C5 (amended): `updateWithPriorityWeights(w)` first performs the
greedy pass — for each basic row `i` the candidate search returns the
maximum of `|S(i,t)|·w_t` over the non-basic columns with `|S(i,t)|`
above the threshold, at a column attaining it, and swaps only on strict
improvement — and then applies the two `std::sort` permutations, so that
afterwards the basic and the non-basic variables are each ordered by
descending weight in `Q` (and correspondingly in `S` and `R`).  The
sort permutations carry only the descending-order guarantee of
`std::sort`, not stability. -/
theorem c5_update_with_priority_weights
    (w : Vec) (θ : ℚ) (r nn : ℕ) (σb σn : ℕ → ℕ) (st : EchState)
    (hσb : SortedDescBasic w (greedyPass w θ r nn st r).q σb r)
    (hσn : SortedDescNonbasic w (greedyPass w θ r nn st r).q σn r nn) :
    (∀ (S' : Mat) (q' : ℕ → ℕ) (i k : ℕ),
      (findCand S' θ w q' r i k).2
        = (Finset.range k).sup
            (fun t => if θ < |S' i t|
              then ((w (q' (r + t)) * |S' i t| : ℚ) : WithBot ℚ) else ⊥))
    ∧ (∀ (S' : Mat) (q' : ℕ → ℕ) (i k : ℕ),
        (findCand S' θ w q' r i k).2 ≠ ⊥ →
        (findCand S' θ w q' r i k).1 < k
          ∧ θ < |S' i (findCand S' θ w q' r i k).1|)
    ∧ (∀ k l, k ≤ l → l < r →
        w ((updateWithPriorityWeights w θ r nn σb σn st).q l)
          ≤ w ((updateWithPriorityWeights w θ r nn σb σn st).q k))
    ∧ (∀ k l, k ≤ l → l < nn →
        w ((updateWithPriorityWeights w θ r nn σb σn st).q (r + l))
          ≤ w ((updateWithPriorityWeights w θ r nn σb σn st).q (r + k))) := by
  refine ⟨fun S' q' i k => findCand_snd_eq_sup S' θ w q' r i k,
    fun S' q' i k h => ⟨(findCand_attains S' θ w q' r i k h).1,
      (findCand_attains S' θ w q' r i k h).2.1⟩, ?_, ?_⟩
  · intro k l hkl hl
    show w ((applySortPerms r σb σn (greedyPass w θ r nn st r)).q l)
        ≤ w ((applySortPerms r σb σn (greedyPass w θ r nn st r)).q k)
    simp only [applySortPerms]
    rw [if_pos hl, if_pos (lt_of_le_of_lt hkl hl)]
    exact hσb k l hkl hl
  · intro k l hkl hl
    show w ((applySortPerms r σb σn (greedyPass w θ r nn st r)).q (r + l))
        ≤ w ((applySortPerms r σb σn (greedyPass w θ r nn st r)).q (r + k))
    simp only [applySortPerms]
    rw [if_neg (by omega), if_neg (by omega),
      Nat.add_sub_cancel_left, Nat.add_sub_cancel_left]
    exact hσn k l hkl hl

/-- Constant priority weights used in the reordering scenarios. -/
def wC5 : Vec := fun _ => 1

/-- Echelonizer state used in the reordering scenarios. -/
def stC5 : EchState :=
  { R := fun _ _ => 0, S := fun _ _ => 0, q := fun k => k }

/-- A `std::sort`-compliant reordering that exchanges the two (equally
weighted) basic positions. -/
def sbC5 : ℕ → ℕ := fun k => swapNat 0 1 k

theorem c5_update_with_priority_weights_witness :
    ((findCand stC5.S 0 wC5 stC5.q 1 0 1).2
      = (Finset.range 1).sup
          (fun t => if (0:ℚ) < |stC5.S 0 t|
            then ((wC5 (stC5.q (1 + t)) * |stC5.S 0 t| : ℚ) : WithBot ℚ) else ⊥))
    ∧ wC5 ((updateWithPriorityWeights wC5 0 1 1 id id stC5).q 1)
        ≤ wC5 ((updateWithPriorityWeights wC5 0 1 1 id id stC5).q 0) := by
  have h := c5_update_with_priority_weights wC5 0 1 1 id id stC5
    (fun k l _ _ => le_rfl) (fun k l _ _ => le_rfl)
  exact ⟨h.1 stC5.S stC5.q 0 1, h.2.2.2 0 0 le_rfl Nat.zero_lt_one⟩

/-- C5 counterexample to the claim as stated: with two equally weighted
basic variables, the exchanging permutation `sbC5` satisfies everything
`std::sort` guarantees (descending keys), yet it is not the stable
reordering the claim asserts, and under it position 0 of `Q` ends up
holding variable 1 where a stable sort would keep variable 0. -/
theorem c5_counterexample_not_stable :
    SortedDescBasic wC5 (greedyPass wC5 0 2 0 stC5 2).q sbC5 2
    ∧ ¬ StableDescPerm wC5 (greedyPass wC5 0 2 0 stC5 2).q 2 sbC5
    ∧ (updateWithPriorityWeights wC5 0 2 0 sbC5 id stC5).q 0 = 1 := by
  refine ⟨fun k l _ _ => le_rfl, ?_, ?_⟩
  · intro hcon
    have h10 := hcon.2 0 1 Nat.zero_lt_one Nat.one_lt_two rfl
    simp [sbC5, swapNat] at h10
  · simp [updateWithPriorityWeights, applySortPerms, greedyPass, greedyStep,
      findCand, sbC5, swapNat, stC5]

/-- Maximum absolute value of the first `n` entries of a vector: both
`D.maxCoeff()` on the absolute diagonal in `LU::Impl::decompose`
(LU.cpp:67-68) and `lu.maxPivot()` of the full-pivoting LU. -/
def maxAbs (v : Vec) : ℕ → ℚ
  | 0 => 0
  | k + 1 => max (maxAbs v k) |v k|

/-- Rank scan of `LU::Impl::decompose` (LU.cpp:70-74): start from full
rank `n`, walk the diagonal of `U` from the bottom, decrement while the
entry is at or below the threshold and stop at the first entry above
it. -/
def luScanRank (diag : Vec) (thr : ℚ) : ℕ → ℕ
  | 0 => 0
  | k + 1 => if |diag k| ≤ thr then luScanRank diag thr k else k + 1

/-- The rank computed by `LU::Impl::decompose` (LU.cpp:52-75): the
threshold is `maxdiagcoeff · ε · n` (the matrix is asserted square at
LU.cpp:60, so `n = max(m, n)`), followed by the bottom-up scan.  The
machine epsilon enters as the exact rational `eps`. -/
def luDecomposeRank (n : ℕ) (eps : ℚ) (diag : Vec) : ℕ :=
  luScanRank diag (maxAbs diag n * eps * n) n

/-- Modelled from the spec: the rank of Eigen's full-pivoting LU, an
ambient primitive whose source is not part of this repository (§4.1 of
the spec assumes it from a host numerical library): the number of pivots
whose absolute value strictly exceeds `maxPivot · threshold` with the
prescribed relative threshold. -/
def eigenFullPivRank (d : ℕ) (piv : Vec) (relTol : ℚ) : ℕ :=
  ((Finset.range d).filter (fun i => maxAbs piv d * relTol < |piv i|)).card

/-- `Echelonizer::Impl::numBasicVariables` (Echelonizer.cpp:84-96): when
the maximum pivot is below `10·ε` the prescribed threshold is set to `1`
before taking the rank, otherwise the default relative threshold is
used. -/
def numBasicVariables (d : ℕ) (piv : Vec) (eps relTol : ℚ) : ℕ :=
  if maxAbs piv d < 10 * eps then eigenFullPivRank d piv 1
  else eigenFullPivRank d piv relTol

/-- The rank rule exactly as the claim words it: thresholded inspection
of `|diag(U)|` with `τ = maxPivot · relTol · max(m, n)`, replaced by the
absolute threshold `1` whenever the maximum pivot is below `10·ε`.  This
definition follows the claim's words and is compared against
`luDecomposeRank`, which never applies the fallback. -/
def claimLURank (n : ℕ) (eps : ℚ) (diag : Vec) : ℕ :=
  if maxAbs diag n < 10 * eps then luScanRank diag 1 n
  else luScanRank diag (maxAbs diag n * eps * n) n

lemma luScanRank_le (diag : Vec) (thr : ℚ) : ∀ k, luScanRank diag thr k ≤ k := by
  intro k
  induction k with
  | zero => simp [luScanRank]
  | succ k ih =>
    unfold luScanRank
    split_ifs
    · omega
    · omega

lemma luScanRank_tail_le (diag : Vec) (thr : ℚ) :
    ∀ k, ∀ i, luScanRank diag thr k ≤ i → i < k → |diag i| ≤ thr := by
  intro k
  induction k with
  | zero => omega
  | succ k ih =>
    intro i hle hlt
    unfold luScanRank at hle
    by_cases h : |diag k| ≤ thr
    · rw [if_pos h] at hle
      rcases Nat.lt_or_ge i k with hik | hik
      · exact ih i hle hik
      · have : i = k := by omega
        rw [this]
        exact h
    · rw [if_neg h] at hle
      omega

lemma luScanRank_last (diag : Vec) (thr : ℚ) :
    ∀ k, 0 < luScanRank diag thr k →
      thr < |diag (luScanRank diag thr k - 1)| := by
  intro k
  induction k with
  | zero => simp [luScanRank]
  | succ k ih =>
    intro hpos
    unfold luScanRank at hpos ⊢
    by_cases h : |diag k| ≤ thr
    · rw [if_pos h] at hpos ⊢
      exact ih hpos
    · rw [if_neg h]
      simpa using not_le.mp h

lemma abs_le_maxAbs (v : Vec) : ∀ d, ∀ i < d, |v i| ≤ maxAbs v d := by
  intro d
  induction d with
  | zero => omega
  | succ d ih =>
    intro i hi
    rcases Nat.lt_or_ge i d with hid | hid
    · exact le_trans (ih i hid) (le_max_left _ _)
    · have : i = d := by omega
      rw [this]
      exact le_max_right _ _

/-- C6 (amended): `LU::decompose` obtains the rank by the bottom-up
thresholded inspection of `|diag(U)|` with the relative threshold
`maxPivot · ε · n` (`= maxPivot · relTol · max(m, n)` since the matrix is
square) and never switches to an absolute threshold, while
`Echelonizer::numBasicVariables` — the number of basic variables — is
the full-pivoting LU rank and, when the maximum pivot is below `10·ε`,
sets the relative threshold to `1`, which yields rank `0`, the same
result as an absolute threshold of `1`. -/
theorem c6_lu_rank_thresholds (n d : ℕ) (eps relTol : ℚ) (diag piv : Vec) :
    (luDecomposeRank n eps diag ≤ n
      ∧ (∀ i, luDecomposeRank n eps diag ≤ i → i < n →
          |diag i| ≤ maxAbs diag n * eps * n)
      ∧ (0 < luDecomposeRank n eps diag →
          maxAbs diag n * eps * n < |diag (luDecomposeRank n eps diag - 1)|))
    ∧ (maxAbs piv d < 10 * eps → 10 * eps ≤ 1 →
        numBasicVariables d piv eps relTol = 0
        ∧ ((Finset.range d).filter (fun i => 1 < |piv i|)).card = 0) := by
  refine ⟨⟨luScanRank_le diag _ n, luScanRank_tail_le diag _ n,
    luScanRank_last diag _ n⟩, fun hmax heps => ?_⟩
  constructor
  · unfold numBasicVariables
    rw [if_pos hmax]
    unfold eigenFullPivRank
    rw [Finset.card_eq_zero, Finset.filter_eq_empty_iff]
    intro i hi
    rw [Finset.mem_range] at hi
    rw [mul_one]
    exact not_lt.mpr (abs_le_maxAbs piv d i hi)
  · rw [Finset.card_eq_zero, Finset.filter_eq_empty_iff]
    intro i hi
    rw [Finset.mem_range] at hi
    exact not_lt.mpr (le_trans (abs_le_maxAbs piv d i hi)
      (le_trans (le_of_lt hmax) heps))

/-- Machine epsilon of IEEE doubles as an exact rational. -/
def epsC6 : ℚ := 1 / 2 ^ 52

/-- A diagonal whose single entry is tiny but far above the relative
threshold `maxPivot · ε · n`. -/
def diagC6 : Vec := fun _ => 1 / 2 ^ 60

theorem c6_lu_rank_thresholds_witness :
    luDecomposeRank 1 epsC6 diagC6 ≤ 1
    ∧ numBasicVariables 1 diagC6 epsC6 epsC6 = 0 := by
  have h := c6_lu_rank_thresholds 1 1 epsC6 epsC6 diagC6 diagC6
  refine ⟨h.1.1, (h.2 ?_ ?_).1⟩
  · show max (maxAbs diagC6 0) |diagC6 0| < 10 * epsC6
    rw [show maxAbs diagC6 0 = 0 from rfl]
    rw [show diagC6 0 = 1 / 2 ^ 60 from rfl, show epsC6 = 1 / 2 ^ 52 from rfl]
    rw [abs_of_pos (by norm_num)]
    rw [max_eq_right (by norm_num)]
    norm_num
  · rw [show epsC6 = 1 / 2 ^ 52 from rfl]
    norm_num

/-- C6 counterexample to the claim as stated: on a `1 × 1` matrix whose
diagonal entry is `2⁻⁶⁰` (maximum pivot below `10·ε`), the claimed rule
switches to the absolute threshold `1` and reports rank `0`, but
`LU::decompose` keeps the relative threshold and reports rank `1`. -/
theorem c6_counterexample_lu_fallback :
    luDecomposeRank 1 epsC6 diagC6 = 1 ∧ claimLURank 1 epsC6 diagC6 = 0 := by
  have hmax : maxAbs diagC6 1 = 1 / 2 ^ 60 := by
    show max (maxAbs diagC6 0) |diagC6 0| = 1 / 2 ^ 60
    rw [show maxAbs diagC6 0 = 0 from rfl,
      show diagC6 0 = 1 / 2 ^ 60 from rfl]
    rw [abs_of_pos (by norm_num)]
    rw [max_eq_right (by norm_num)]
  constructor
  · unfold luDecomposeRank luScanRank
    rw [hmax]
    rw [if_neg ?_]
    rw [show diagC6 0 = 1 / 2 ^ 60 from rfl, show epsC6 = 1 / 2 ^ 52 from rfl,
      abs_of_pos (by norm_num)]
    norm_num
  · unfold claimLURank luScanRank
    rw [hmax]
    rw [if_pos (by rw [show epsC6 = 1 / 2 ^ 52 from rfl]; norm_num)]
    rw [if_pos ?_]
    · rfl
    · rw [show diagC6 0 = 1 / 2 ^ 60 from rfl, abs_of_pos (by norm_num)]
      norm_num

/-- `Echelonizer::Impl::compute` including its entry assertion
(Echelonizer.cpp:106-107): the computation is reached only when the
matrix has at least as many columns as rows; otherwise the assertion
fires, modelled as `none`. -/
def echelonizerCompute (m n r : ℕ) (Linv Ubbinv : Mat) (p : ℕ → ℕ)
    (U : Mat) : Option (Mat × Mat) :=
  if n < m then none
  else some (computeR m r Linv Ubbinv p, computeS r Ubbinv U)

/-- C9: `Echelonizer::compute(A)` requires `n ≥ m`: the assertion-failure
branch is taken exactly on inputs with more rows than columns, and with
`n ≥ m` the computation always produces a result. -/
theorem c9_compute_requires_wide_matrix (m n r : ℕ)
    (Linv Ubbinv : Mat) (p : ℕ → ℕ) (U : Mat) :
    (echelonizerCompute m n r Linv Ubbinv p U = none ↔ n < m)
    ∧ (n < m ∨ echelonizerCompute m n r Linv Ubbinv p U
        = some (computeR m r Linv Ubbinv p, computeS r Ubbinv U)) := by
  unfold echelonizerCompute
  by_cases h : n < m
  · rw [if_pos h]
    exact ⟨⟨fun _ => h, fun _ => rfl⟩, Or.inl h⟩
  · rw [if_neg h]
    exact ⟨⟨fun hc => absurd hc (by simp), fun hc => absurd hc h⟩, Or.inr rfl⟩

/-- Iterate of `BasicSolver` (the `x` and `y` members of `BasicState`). -/
structure BState where
  x : Vec
  y : Vec

/-- Pointwise update of a vector at one index. -/
def vset (v : Vec) (i : ℕ) (a : ℚ) : Vec := fun j => if j = i then a else v j

/-- `for(Index i : ilower) x[i] = std::max(x[i], xlower[i])`
(BasicSolver.cpp:280,464). -/
def clampLowerList (bl : Vec) : List ℕ → Vec → Vec
  | [], v => v
  | i :: is, v => clampLowerList bl is (vset v i (max (v i) (bl i)))

/-- `for(Index i : iupper) x[i] = std::min(x[i], xupper[i])`
(BasicSolver.cpp:281,465). -/
def clampUpperList (bu : Vec) : List ℕ → Vec → Vec
  | [], v => v
  | i :: is, v => clampUpperList bu is (vset v i (min (v i) (bu i)))

/-- `x(ifixed) = params.xfixed` (BasicSolver.cpp:284,477). -/
def assignList (vals : Vec) : List ℕ → Vec → Vec
  | [], v => v
  | i :: is, v => assignList vals is (vset v i (vals i))

/-- Bound and fixed-variable data of a `BasicProblem`/`BasicParams` pair:
the index lists from `problem.constraints` and the corresponding values
scattered into full-length vectors (entries outside the lists are never
read, mirroring the `xlower(ilower) = params.xlower` scattering of
BasicSolver.cpp:272-273). -/
structure BCtx where
  ilower : List ℕ
  iupper : List ℕ
  ifixed : List ℕ
  xlower : Vec
  xupper : Vec
  xfixed : Vec

/-- The common clamp-then-fix pattern of `initialize`
(BasicSolver.cpp:280-284) and `applyNewtonSteppingAggressive`
(BasicSolver.cpp:464-477): clamp at the lower-bounded indices, clamp at
the upper-bounded indices, then overwrite the fixed indices. -/
def boundAndFix (ctx : BCtx) (v : Vec) : Vec :=
  assignList ctx.xfixed ctx.ifixed
    (clampUpperList ctx.xupper ctx.iupper
      (clampLowerList ctx.xlower ctx.ilower v))

/-- The outputs of the `k`-th `computeNewtonStep` call
(BasicSolver.cpp:336-352): the steps `dx`, `dy` and residuals `rx`, `ry`
written by `stepper.solve`.  The stepper is external to this loop, so
its per-call outputs are inputs of the model. -/
structure StepOracle where
  dx : ℕ → Vec
  dy : ℕ → Vec
  rx : ℕ → Vec
  ry : ℕ → Vec

/-- The error of `updateResultErrors` (BasicSolver.cpp:355-366) for the
`k`-th residual computation:
`max(||rx||_inf, ||ry||_inf)` over `n` and `m` components. -/
def solveError (orc : StepOracle) (n m k : ℕ) : ℚ :=
  max (maxAbs (orc.rx k) n) (maxAbs (orc.ry k) m)

/-- `BasicSolver::Impl::applyNewtonSteppingAggressive`
(BasicSolver.cpp:449-478): take the full step `x + dx`, clamp it at the
bounded indices, accept it, update `y`, then reset the fixed
variables. -/
def applyAggressive (ctx : BCtx) (dx dy : Vec) (st : BState) : BState :=
  { x := boundAndFix ctx (fun i => st.x i + dx i)
    y := fun i => st.y i + dy i }

/-- The state mutation of `BasicSolver::Impl::initialize`
(BasicSolver.cpp:257-304): clamp the initial guess into the bounds and
set the fixed variables. -/
def initializeState (ctx : BCtx) (st : BState) : BState :=
  { x := boundAndFix ctx st.x, y := st.y }

/-- Result of `BasicSolver::solve` restricted to the fields the claims
speak about, plus counters of the objective/constraint callback
invocations. -/
structure BResult where
  succeeded : Bool
  iterations : ℕ
  error : ℚ
  state : BState
  nObjEvals : ℕ
  nConstrEvals : ℕ

/-- The iteration loop of `BasicSolver::Impl::solve`
(BasicSolver.cpp:596-607): apply the Newton step, test convergence on
the error computed at the end of the previous iteration (or at
`initialize`), and otherwise re-evaluate the objective, recompute the
step and the error.  `k` is the value of `iterations`, `fuel` the number
of loop entries left before `iterations > maxiters`. -/
def solveLoop (ctx : BCtx) (orc : StepOracle) (n m : ℕ) (tol : ℚ) :
    ℕ → ℕ → BState → ℚ → ℕ → ℕ → BResult
  | 0, k, st, err, nev, ncv =>
    { succeeded := false, iterations := k, error := err, state := st
      nObjEvals := nev, nConstrEvals := ncv }
  | fuel + 1, k, st, err, nev, ncv =>
    let st1 := applyAggressive ctx (orc.dx (k - 1)) (orc.dy (k - 1)) st
    if err < tol then
      { succeeded := true, iterations := k, error := err, state := st1
        nObjEvals := nev, nConstrEvals := ncv }
    else
      solveLoop ctx orc n m tol fuel (k + 1) st1 (solveError orc n m k)
        (nev + 1) ncv

/-- `BasicSolver::Impl::solve` (BasicSolver.cpp:574-616): immediate
success without touching the state or the callbacks when the problem has
no variables, otherwise `initialize` (one objective evaluation, one
constraint evaluation when `mh > 0`, the first Newton step and the first
error) followed by the iteration loop started at `iterations = 1`. -/
def basicSolve (ctx : BCtx) (orc : StepOracle) (n mh m maxiters : ℕ)
    (tol : ℚ) (st0 : BState) : BResult :=
  if n = 0 then
    { succeeded := true, iterations := 0, error := 0, state := st0
      nObjEvals := 0, nConstrEvals := 0 }
  else
    solveLoop ctx orc n m tol maxiters 1 (initializeState ctx st0)
      (solveError orc n m 0) 1 (if mh = 0 then 0 else 1)

/-- The loop converges exactly when one of the errors computed before
`fuel` runs out falls strictly below the tolerance: the test of
iteration `k` reads the error produced by residual computation
`k - 1`. -/
lemma solveLoop_succeeded_iff (ctx : BCtx) (orc : StepOracle) (n m : ℕ)
    (tol : ℚ) : ∀ (fuel k : ℕ) (st : BState) (nev ncv : ℕ), 1 ≤ k →
    ((solveLoop ctx orc n m tol fuel k st (solveError orc n m (k - 1))
        nev ncv).succeeded = true
      ↔ ∃ j < fuel, solveError orc n m (k - 1 + j) < tol) := by
  intro fuel
  induction fuel with
  | zero =>
    intro k st nev ncv hk
    simp [solveLoop]
  | succ fuel ih =>
    intro k st nev ncv hk
    unfold solveLoop
    by_cases hconv : solveError orc n m (k - 1) < tol
    · rw [if_pos hconv]
      simp only [true_iff]
      exact ⟨0, Nat.succ_pos fuel, by simpa using hconv⟩
    · rw [if_neg hconv]
      have hrec := ih (k + 1)
        (applyAggressive ctx (orc.dx (k - 1)) (orc.dy (k - 1)) st)
        (nev + 1) ncv (by omega)
      rw [Nat.add_sub_cancel] at hrec
      rw [hrec]
      constructor
      · rintro ⟨j, hj, hjlt⟩
        refine ⟨j + 1, by omega, ?_⟩
        have he : k - 1 + (j + 1) = k + j := by omega
        rw [he]
        exact hjlt
      · rintro ⟨j, hj, hjlt⟩
        cases j with
        | zero =>
          rw [Nat.add_zero] at hjlt
          exact absurd hjlt hconv
        | succ j =>
          refine ⟨j, by omega, ?_⟩
          have he : k + j = k - 1 + (j + 1) := by omega
          rw [he]
          exact hjlt

/-- C2: with at least one variable, `BasicSolver::solve` returns
`succeeded = true` exactly when, within `max_iterations` iterations, the
error `max(||rx||_inf, ||ry||_inf)` of some residual computation becomes
strictly less than `options.tolerance` (the test of iteration `k` reads
the residuals computed at the end of iteration `k-1`, the initial ones
coming from `initialize`); when the iteration cap is reached without
convergence the result carries `succeeded = false`. -/
theorem c2_solve_convergence (ctx : BCtx) (orc : StepOracle)
    (n mh m maxiters : ℕ) (tol : ℚ) (st0 : BState) (hn : 1 ≤ n) :
    ((basicSolve ctx orc n mh m maxiters tol st0).succeeded = true
      ↔ ∃ k < maxiters, solveError orc n m k < tol)
    ∧ ((∀ k < maxiters, ¬ solveError orc n m k < tol) →
        (basicSolve ctx orc n mh m maxiters tol st0).succeeded = false) := by
  have hne : ¬ n = 0 := by omega
  have hiff : (basicSolve ctx orc n mh m maxiters tol st0).succeeded = true
      ↔ ∃ k < maxiters, solveError orc n m k < tol := by
    unfold basicSolve
    rw [if_neg hne]
    have h := solveLoop_succeeded_iff ctx orc n m tol maxiters 1
      (initializeState ctx st0) 1 (if mh = 0 then 0 else 1) le_rfl
    rw [h]
    constructor
    · rintro ⟨j, hj, hjlt⟩
      exact ⟨j, hj, by simpa using hjlt⟩
    · rintro ⟨j, hj, hjlt⟩
      exact ⟨j, hj, by simpa using hjlt⟩
  refine ⟨hiff, fun hall => ?_⟩
  rcases Bool.eq_false_or_eq_true
      (basicSolve ctx orc n mh m maxiters tol st0).succeeded with ht | hf
  · rcases hiff.mp ht with ⟨k, hk, hlt⟩
    exact absurd hlt (hall k hk)
  · exact hf

/-- C10: `BasicSolver::solve` on a problem with zero variables returns
immediately with `succeeded = true` and `iterations = 0`, performs no
objective or constraint callback evaluation, and leaves the state
untouched. -/
theorem c10_solve_no_variables (ctx : BCtx) (orc : StepOracle)
    (mh m maxiters : ℕ) (tol : ℚ) (st0 : BState) :
    (basicSolve ctx orc 0 mh m maxiters tol st0).succeeded = true
    ∧ (basicSolve ctx orc 0 mh m maxiters tol st0).iterations = 0
    ∧ (basicSolve ctx orc 0 mh m maxiters tol st0).nObjEvals = 0
    ∧ (basicSolve ctx orc 0 mh m maxiters tol st0).nConstrEvals = 0
    ∧ (basicSolve ctx orc 0 mh m maxiters tol st0).state = st0 := by
  unfold basicSolve
  rw [if_pos rfl]
  exact ⟨rfl, rfl, rfl, rfl, rfl⟩

lemma clampLowerList_apply (bl : Vec) :
    ∀ (l : List ℕ) (v : Vec) (i : ℕ),
      clampLowerList bl l v i = if i ∈ l then max (v i) (bl i) else v i := by
  intro l
  induction l with
  | nil => intro v i; simp [clampLowerList]
  | cons j l ih =>
    intro v i
    unfold clampLowerList
    rw [ih]
    by_cases hij : i = j
    · subst hij
      by_cases hil : i ∈ l
      · rw [if_pos hil]
        simp [vset, max_assoc]
      · rw [if_neg hil]
        simp [vset]
    · simp [vset, hij, List.mem_cons]

lemma clampUpperList_apply (bu : Vec) :
    ∀ (l : List ℕ) (v : Vec) (i : ℕ),
      clampUpperList bu l v i = if i ∈ l then min (v i) (bu i) else v i := by
  intro l
  induction l with
  | nil => intro v i; simp [clampUpperList]
  | cons j l ih =>
    intro v i
    unfold clampUpperList
    rw [ih]
    by_cases hij : i = j
    · subst hij
      by_cases hil : i ∈ l
      · rw [if_pos hil]
        simp [vset, min_assoc]
      · rw [if_neg hil]
        simp [vset]
    · simp [vset, hij, List.mem_cons]

lemma assignList_apply (vals : Vec) :
    ∀ (l : List ℕ) (v : Vec) (i : ℕ),
      assignList vals l v i = if i ∈ l then vals i else v i := by
  intro l
  induction l with
  | nil => intro v i; simp [assignList]
  | cons j l ih =>
    intro v i
    unfold assignList
    rw [ih]
    by_cases hij : i = j
    · subst hij
      by_cases hil : i ∈ l
      · rw [if_pos hil]
        simp [vset]
      · rw [if_neg hil]
        simp [vset]
    · simp [vset, hij, List.mem_cons]

/-- The value of the clamp-then-fix pattern at one component: fixed
components take their prescribed value; otherwise components that would
cross a bound are clamped to it and all others are unchanged. -/
lemma boundAndFix_apply (ctx : BCtx) (v : Vec) (i : ℕ) :
    boundAndFix ctx v i =
      if i ∈ ctx.ifixed then ctx.xfixed i
      else if i ∈ ctx.iupper then
        min (if i ∈ ctx.ilower then max (v i) (ctx.xlower i) else v i)
          (ctx.xupper i)
      else if i ∈ ctx.ilower then max (v i) (ctx.xlower i) else v i := by
  unfold boundAndFix
  rw [assignList_apply, clampUpperList_apply, clampLowerList_apply]

/-- Bound satisfaction of the iterate `x` at every bounded index. -/
def InBounds (ctx : BCtx) (st : BState) : Prop :=
  (∀ i ∈ ctx.ilower, ctx.xlower i ≤ st.x i)
  ∧ (∀ i ∈ ctx.iupper, st.x i ≤ ctx.xupper i)

lemma boundAndFix_bounds (ctx : BCtx) (v : Vec)
    (hbnd : ∀ i ∈ ctx.ilower, i ∈ ctx.iupper → ctx.xlower i ≤ ctx.xupper i)
    (hfixl : ∀ i ∈ ctx.ifixed, i ∈ ctx.ilower → ctx.xlower i ≤ ctx.xfixed i)
    (hfixu : ∀ i ∈ ctx.ifixed, i ∈ ctx.iupper → ctx.xfixed i ≤ ctx.xupper i) :
    (∀ i ∈ ctx.ilower, ctx.xlower i ≤ boundAndFix ctx v i)
    ∧ (∀ i ∈ ctx.iupper, boundAndFix ctx v i ≤ ctx.xupper i) := by
  constructor
  · intro i hi
    rw [boundAndFix_apply]
    by_cases hf : i ∈ ctx.ifixed
    · rw [if_pos hf]
      exact hfixl i hf hi
    · rw [if_neg hf]
      by_cases hu : i ∈ ctx.iupper
      · rw [if_pos hu, if_pos hi]
        exact le_min (le_max_right _ _) (hbnd i hi hu)
      · rw [if_neg hu, if_pos hi]
        exact le_max_right _ _
  · intro i hi
    rw [boundAndFix_apply]
    by_cases hf : i ∈ ctx.ifixed
    · rw [if_pos hf]
      exact hfixu i hf hi
    · rw [if_neg hf, if_pos hi]
      exact min_le_right _ _

lemma solveLoop_inBounds (ctx : BCtx) (orc : StepOracle) (n m : ℕ)
    (tol : ℚ)
    (hbnd : ∀ i ∈ ctx.ilower, i ∈ ctx.iupper → ctx.xlower i ≤ ctx.xupper i)
    (hfixl : ∀ i ∈ ctx.ifixed, i ∈ ctx.ilower → ctx.xlower i ≤ ctx.xfixed i)
    (hfixu : ∀ i ∈ ctx.ifixed, i ∈ ctx.iupper → ctx.xfixed i ≤ ctx.xupper i) :
    ∀ (fuel k : ℕ) (st : BState) (err : ℚ) (nev ncv : ℕ),
      InBounds ctx st →
      InBounds ctx (solveLoop ctx orc n m tol fuel k st err nev ncv).state := by
  intro fuel
  induction fuel with
  | zero =>
    intro k st err nev ncv hst
    exact hst
  | succ fuel ih =>
    intro k st err nev ncv hst
    unfold solveLoop
    by_cases hc : err < tol
    · rw [if_pos hc]
      exact boundAndFix_bounds ctx _ hbnd hfixl hfixu
    · rw [if_neg hc]
      exact ih _ _ _ _ _ (boundAndFix_bounds ctx _ hbnd hfixl hfixu)

/-- `NewtonStep::Impl::apply` (NewtonStep.cpp:42-52), action on the
primal block: the full Newton step followed by the componentwise
projection `min(max(u.x, xlower), xupper)`. -/
def newtonStepApply (xlower xupper uox dux : Vec) : Vec :=
  fun i => min (max (uox i + dux i) (xlower i)) (xupper i)

/-- C4 (amended): the clamp of the Aggressive step acts componentwise —
fixed components take their prescribed value, bounded components that
would cross are clamped and the others move freely — and, provided the
bounds are consistent and every fixed value respects the bounds of its
index, every accepted iterate of `BasicSolver::solve` (in particular the
final one, for any step oracle and iteration budget) satisfies
`xlower ≤ x ≤ xupper` at all bounded indices; `NewtonStep::apply`
projects every component into `[xlower, xupper]` whenever
`xlower ≤ xupper`. -/
theorem c4_aggressive_step_bounds (ctx : BCtx) (orc : StepOracle)
    (n mh m maxiters : ℕ) (tol : ℚ) (st0 : BState) (hn : 1 ≤ n)
    (hbnd : ∀ i ∈ ctx.ilower, i ∈ ctx.iupper → ctx.xlower i ≤ ctx.xupper i)
    (hfixl : ∀ i ∈ ctx.ifixed, i ∈ ctx.ilower → ctx.xlower i ≤ ctx.xfixed i)
    (hfixu : ∀ i ∈ ctx.ifixed, i ∈ ctx.iupper → ctx.xfixed i ≤ ctx.xupper i) :
    (∀ (dx : Vec) (st : BState) (i : ℕ),
      (applyAggressive ctx dx (fun _ => 0) st).x i =
        if i ∈ ctx.ifixed then ctx.xfixed i
        else if i ∈ ctx.iupper then
          min (if i ∈ ctx.ilower then max (st.x i + dx i) (ctx.xlower i)
                else st.x i + dx i) (ctx.xupper i)
        else if i ∈ ctx.ilower then max (st.x i + dx i) (ctx.xlower i)
          else st.x i + dx i)
    ∧ InBounds ctx (basicSolve ctx orc n mh m maxiters tol st0).state
    ∧ (∀ (xl xu uox dux : Vec) (i : ℕ), xl i ≤ xu i →
        xl i ≤ newtonStepApply xl xu uox dux i
        ∧ newtonStepApply xl xu uox dux i ≤ xu i) := by
  refine ⟨fun dx st i => boundAndFix_apply ctx _ i, ?_, ?_⟩
  · unfold basicSolve
    rw [if_neg (by omega)]
    exact solveLoop_inBounds ctx orc n m tol hbnd hfixl hfixu _ _ _ _ _ _
      (boundAndFix_bounds ctx _ hbnd hfixl hfixu)
  · intro xl xu uox dux i hle
    exact ⟨le_min (le_max_right _ _) hle, min_le_right _ _⟩

/-- Step oracle producing all-zero steps and residuals. -/
def zeroOracle : StepOracle :=
  { dx := fun _ _ => 0, dy := fun _ _ => 0
    rx := fun _ _ => 0, ry := fun _ _ => 0 }

/-- All-zero initial iterate. -/
def zeroState : BState := { x := fun _ => 0, y := fun _ => 0 }

/-- Problem description with no bounds and no fixed variables. -/
def emptyCtx : BCtx :=
  { ilower := [], iupper := [], ifixed := []
    xlower := fun _ => 0, xupper := fun _ => 0, xfixed := fun _ => 0 }

theorem c4_aggressive_step_bounds_witness :
    (applyAggressive emptyCtx (fun _ => 1) (fun _ => 0) zeroState).x 0
      = zeroState.x 0 + 1
    ∧ InBounds emptyCtx
        (basicSolve emptyCtx zeroOracle 1 0 0 1 0 zeroState).state
    ∧ ((fun _ => (0:ℚ)) 0 ≤ newtonStepApply (fun _ => 0) (fun _ => 1)
          (fun _ => 5) (fun _ => 5) 0
        ∧ newtonStepApply (fun _ => 0) (fun _ => 1)
            (fun _ => 5) (fun _ => 5) 0 ≤ (fun _ => (1:ℚ)) 0) := by
  have h := c4_aggressive_step_bounds emptyCtx zeroOracle 1 0 0 1 0 zeroState
    le_rfl (by intro i hi; cases hi) (by intro i hi; cases hi)
    (by intro i hi; cases hi)
  refine ⟨?_, h.2.1, h.2.2 _ _ _ _ 0 (by norm_num)⟩
  rw [h.1 (fun _ => 1) zeroState 0]
  simp [emptyCtx]

/-- Problem description whose only variable is both lower-bounded at `0`
and fixed at `-1`. -/
def ctxC4 : BCtx :=
  { ilower := [0], iupper := [], ifixed := [0]
    xlower := fun _ => 0, xupper := fun _ => 0, xfixed := fun _ => -1 }

/-- C4 counterexample to the claim as stated: the fixed-variable
overwrite `x(ifixed) = params.xfixed` runs after the bound projection
(BasicSolver.cpp:464-477), so with a fixed value of `-1` below the lower
bound `0` the accepted iterate of `BasicSolver::solve` violates
`xlower ≤ x` at the bounded index `0`. -/
theorem c4_counterexample_fixed_breaks_bounds :
    (basicSolve ctxC4 zeroOracle 1 0 0 1 0 zeroState).state.x 0 = -1
    ∧ (0 ∈ ctxC4.ilower ∧ ctxC4.xlower 0 = 0)
    ∧ (basicSolve ctxC4 zeroOracle 1 0 0 1 0 zeroState).state.x 0
        < ctxC4.xlower 0 := by
  have hx : (basicSolve ctxC4 zeroOracle 1 0 0 1 0 zeroState).state.x 0
      = -1 := by
    show (solveLoop ctxC4 zeroOracle 1 0 0 1 1 (initializeState ctxC4 zeroState)
        (solveError zeroOracle 1 0 0) 1 0).state.x 0 = -1
    have herr : ¬ solveError zeroOracle 1 0 0 < 0 := by
      simp [solveError, maxAbs, zeroOracle]
    unfold solveLoop
    rw [if_neg herr]
    show (applyAggressive ctxC4 (zeroOracle.dx 0) (zeroOracle.dy 0)
        (initializeState ctxC4 zeroState)).x 0 = -1
    rw [show (applyAggressive ctxC4 (zeroOracle.dx 0) (zeroOracle.dy 0)
          (initializeState ctxC4 zeroState)).x 0
        = boundAndFix ctxC4
            (fun i => (initializeState ctxC4 zeroState).x i
              + zeroOracle.dx 0 i) 0 from rfl]
    rw [boundAndFix_apply]
    simp [ctxC4]
  refine ⟨hx, ⟨List.mem_singleton.mpr rfl, rfl⟩, ?_⟩
  rw [hx]
  norm_num [ctxC4]

theorem c2_solve_convergence_witness :
    (basicSolve emptyCtx zeroOracle 1 0 0 1 1 zeroState).succeeded = true := by
  have h := c2_solve_convergence emptyCtx zeroOracle 1 0 0 1 1 zeroState le_rfl
  refine h.1.mpr ⟨0, Nat.zero_lt_one, ?_⟩
  show max (maxAbs (zeroOracle.rx 0) 1) (maxAbs (zeroOracle.ry 0) 0) < 1
  norm_num [maxAbs, zeroOracle]

/-- A double that may be NaN: `none` plays the role of a quiet NaN,
`some x` of the finite value `x`. -/
def QD : Type := Option ℚ

/-- NaN-propagating addition. -/
def qdAdd (a b : QD) : QD :=
  match a, b with
  | some x, some y => some (x + y)
  | _, _ => none

/-- NaN-propagating subtraction. -/
def qdSub (a b : QD) : QD :=
  match a, b with
  | some x, some y => some (x - y)
  | _, _ => none

/-- NaN-propagating multiplication (`NaN * x = NaN`, as for quiet NaNs). -/
def qdMul (a b : QD) : QD :=
  match a, b with
  | some x, some y => some (x * y)
  | _, _ => none

/-- NaN-propagating division. -/
def qdDiv (a b : QD) : QD :=
  match a, b with
  | some x, some y => some (x / y)
  | _, _ => none

/-- Sum of the first `k` terms under NaN propagation. -/
def qdSumTo (f : ℕ → QD) : ℕ → QD
  | 0 => some 0
  | k + 1 => qdAdd (qdSumTo f k) (f k)

/-- Forward substitution `Xt = L.solve(Xt)` of `LU::Impl::solve`
(LU.cpp:94) on the leading `rank` rows: the result list holds the first
`i` solved entries, each `y_i = x_i - Σ_{t<i} L(i,t)·y_t` (`L` unit
lower). -/
def fwdSolve (LU : Mat) (xp : ℕ → QD) : ℕ → List QD
  | 0 => []
  | i + 1 =>
    let prev := fwdSolve LU xp i
    prev ++ [qdSub (xp i)
      (qdSumTo (fun t => qdMul (some (LU i t)) (prev.getD t (some 0))) i)]

/-- Back substitution `Xt = U.solve(Xt)` of `LU::Impl::solve`
(LU.cpp:95): `backSolve LU rank y k` holds `[z_{rank-k}, …, z_{rank-1}]`
with `z_i = (y_i - Σ_{t>i} U(i,t)·z_t) / U(i,i)`. -/
def backSolve (LU : Mat) (rank : ℕ) (y : ℕ → QD) : ℕ → List QD
  | 0 => []
  | k + 1 =>
    let prev := backSolve LU rank y k
    let i := rank - (k + 1)
    qdDiv (qdSub (y i)
        (qdSumTo (fun t => qdMul (some (LU i (i + 1 + t)))
          (prev.getD t (some 0))) (rank - i - 1)))
      (some (LU i i)) :: prev

/-- `LU::Impl::solve` (LU.cpp:78-101): apply `P`, solve with the unit
lower and upper triangular factors on the leading `rank` rows, and fill
every row from `rank` on with a quiet NaN (`Xb.fill(nan)`). -/
def luSolve (nn rank : ℕ) (LU : Mat) (p : ℕ → ℕ) (b : ℕ → QD) : ℕ → QD :=
  fun i =>
    if i < rank then
      (backSolve LU rank
        (fun t => (fwdSolve LU (fun s => b (p s)) rank).getD t (some 0))
        rank).getD i (some 0)
    else none

/-- The NaN scrub of `Stepper::Impl::solve` (Stepper.cpp:324-325):
`dx = dx.array().isNaN().select(0.0, dx)`. -/
def scrubNaN (v : ℕ → QD) : ℕ → QD := fun i =>
  match v i with
  | none => some 0
  | some x => some x

/-- The step `dx = xbar - xprime` of `Stepper::Impl::solve`
(Stepper.cpp:314) followed by the NaN scrub (Stepper.cpp:324). -/
def stepperDx (xbar : ℕ → QD) (xprime : Vec) : ℕ → QD :=
  scrubNaN (fun i => qdSub (xbar i) (some (xprime i)))

/-- The step `dy = ybar - y` of `Stepper::Impl::solve` (Stepper.cpp:315)
followed by the NaN scrub (Stepper.cpp:325). -/
def stepperDy (ybar : ℕ → QD) (y : Vec) : ℕ → QD :=
  scrubNaN (fun i => qdSub (ybar i) (some (y i)))

/-- C3: the LU solve fills every solution row at or beyond the detected
rank with NaN, and `Stepper::solve` replaces every NaN component of the
computed steps by `0`, so that after `Stepper::solve` no component of
`dx` or `dy` is NaN and a variable whose saddle point solution came back
NaN gets a zero step (is frozen). -/
theorem c3_nan_rows_frozen (nn rank : ℕ) (LU : Mat) (p : ℕ → ℕ)
    (b xbar ybar : ℕ → QD) (xprime y : Vec) :
    (∀ i, rank ≤ i → i < nn → luSolve nn rank LU p b i = none)
    ∧ (∀ i, (stepperDx xbar xprime i).isSome = true
        ∧ (stepperDy ybar y i).isSome = true)
    ∧ (∀ i, xbar i = none → stepperDx xbar xprime i = some 0)
    ∧ (∀ i, ybar i = none → stepperDy ybar y i = some 0) := by
  refine ⟨fun i hle _ => ?_, fun i => ⟨?_, ?_⟩, fun i hb => ?_, fun i hb => ?_⟩
  · unfold luSolve
    rw [if_neg (by omega)]
  · unfold stepperDx scrubNaN
    rcases hq : qdSub (xbar i) (some (xprime i)) with _ | x <;> simp [hq]
  · unfold stepperDy scrubNaN
    rcases hq : qdSub (ybar i) (some (y i)) with _ | x <;> simp [hq]
  · unfold stepperDx scrubNaN
    simp [qdSub, hb]
  · unfold stepperDy scrubNaN
    simp [qdSub, hb]

theorem c3_nan_rows_frozen_witness :
    luSolve 2 1 (fun _ _ => 1) id (fun _ => some 1) 1 = none
    ∧ stepperDx (fun _ => none) (fun _ => 3) 0 = some 0
    ∧ (stepperDy (fun _ => some 2) (fun _ => 3) 0).isSome = true := by
  have h := c3_nan_rows_frozen 2 1 (fun _ _ => 1) id (fun _ => some 1)
    (fun _ => none) (fun _ => some 2) (fun _ => 3) (fun _ => 3)
  exact ⟨h.1 1 le_rfl Nat.one_lt_two, h.2.2.1 0 rfl, (h.2.1 0).2⟩

/-- `Stepper::Impl::sensitivities` (Stepper.cpp:329-375), per parameter
column: assemble the right-hand sides (`-dgdp` at stable rows, `0` at
unstable rows, `dbdp` on the linear block and `-dhdp` on the nonlinear
block), hand them to the saddle point solver, then set
`dzdp = dgdp + Wᵀ·dydp` at unstable rows and `0` at stable rows.
Modelled from the spec: the saddle point backend (`SaddlePointSolver`,
whose source is not part of this repository) is the function `solver`
from the right-hand sides to the solution pair, and per §4.4 of the spec
("Unstable components of dx are set to 0") the x-block of its output has
the unstable components forced to zero. -/
def sensitivities (m ml : ℕ) (unstable : ℕ → Bool) (W : Mat)
    (dgdp dbdp dhdp : Vec) (solver : Vec → Vec → Vec × Vec) :
    Vec × Vec × Vec :=
  let rhsX : Vec := fun i => if unstable i then 0 else -dgdp i
  let rhsY : Vec := fun k => if k < ml then dbdp k else -dhdp (k - ml)
  let sol := solver rhsX rhsY
  let dxdp : Vec := fun i => if unstable i then 0 else sol.1 i
  let dydp : Vec := sol.2
  let dzdp : Vec := fun i =>
    if unstable i then
      dgdp i + ∑ k ∈ Finset.range m, W k i * dydp k
    else 0
  (dxdp, dydp, dzdp)

/-- C7: `Stepper::sensitivities` produces, for every parameter column,
`∂xᵢ/∂p = 0` and `∂zᵢ/∂p = ∂gᵢ/∂p + Wᵢᵀ·∂y/∂p` for every unstable
variable `i`, and `∂zᵢ/∂p = 0` for every stable variable `i`. -/
theorem c7_sensitivities_unstable_stable (m ml : ℕ) (unstable : ℕ → Bool)
    (W : Mat) (dgdp dbdp dhdp : Vec) (solver : Vec → Vec → Vec × Vec) :
    (∀ i, unstable i = true →
      (sensitivities m ml unstable W dgdp dbdp dhdp solver).1 i = 0
      ∧ (sensitivities m ml unstable W dgdp dbdp dhdp solver).2.2 i
          = dgdp i + ∑ k ∈ Finset.range m,
              W k i * (sensitivities m ml unstable W dgdp dbdp dhdp solver).2.1 k)
    ∧ (∀ i, unstable i = false →
        (sensitivities m ml unstable W dgdp dbdp dhdp solver).2.2 i = 0) := by
  refine ⟨fun i hi => ⟨?_, ?_⟩, fun i hi => ?_⟩
  · simp [sensitivities, hi]
  · simp [sensitivities, hi]
  · simp [sensitivities, hi]

theorem c7_sensitivities_witness :
    (sensitivities 1 1 (fun i => i == 0) (fun _ _ => 1) (fun _ => 2)
      (fun _ => 3) (fun _ => 4) (fun a b => (a, b))).1 0 = 0
    ∧ (sensitivities 1 1 (fun i => i == 0) (fun _ _ => 1) (fun _ => 2)
        (fun _ => 3) (fun _ => 4) (fun a b => (a, b))).2.2 1 = 0 := by
  have h := c7_sensitivities_unstable_stable 1 1 (fun i => i == 0)
    (fun _ _ => 1) (fun _ => 2) (fun _ => 3) (fun _ => 4) (fun a b => (a, b))
  exact ⟨(h.1 0 rfl).1, h.2 1 rfl⟩

/-- Modelled from the spec: `ResidualFunctionUpdateStatus`
(declared in ResidualFunction.hpp, which is not part of this
repository): one boolean outcome per callback, each defaulting to
success; per §4.5 of the spec ("any failed evaluation aborts the outer
step") the status counts as an overall success exactly when all three
callbacks succeeded. -/
structure UpdateStatus where
  f : Bool
  h : Bool
  v : Bool

/-- Overall success of an `UpdateStatus` (the `status == FAILED`
comparison of ResidualFunction.cpp:76). -/
def UpdateStatus.ok (s : UpdateStatus) : Bool := s.f && s.h && s.v

/-- `ResidualFunction::Impl::updateFunctionEvals` and its
skip-Jacobian variant (ResidualFunction.cpp:98-126): call `f`, `h`, `v`
in this order with the Jacobian-request flag `needJ` (`{true, true}` in
`update`, `{false, false}` in `updateSkipJacobian`); on the first
failure return immediately with that callback's flag false and the later
callbacks not invoked.  The returned list records which callbacks were
invoked (`0` = f, `1` = h, `2` = v). -/
def updateFunctionEvals (fcb hcb vcb : Bool → Bool) (needJ : Bool) :
    UpdateStatus × List ℕ :=
  if fcb needJ = false then ({ f := false, h := true, v := true }, [0])
  else if hcb needJ = false then ({ f := true, h := false, v := true }, [0, 1])
  else if vcb needJ = false then
    ({ f := true, h := true, v := false }, [0, 1, 2])
  else ({ f := true, h := true, v := true }, [0, 1, 2])

/-- `ResidualFunction::Impl::update` / `updateSkipJacobian`
(ResidualFunction.cpp:72-96): evaluate the callbacks, and only when all
succeeded run the four cached-state updates (echelon form of `W`,
stability classification, canonical Jacobian, residual vector) in
order; on failure return the failed status with the cache untouched.
The cache is the abstract type `α`, its four updaters are inputs. -/
def residualUpdate {α : Type} (fcb hcb vcb : Bool → Bool) (needJ : Bool)
    (cache : α) (updEchelon updStability updJacobian updResidual : α → α) :
    UpdateStatus × α × List ℕ :=
  let s := updateFunctionEvals fcb hcb vcb needJ
  if s.1.ok = false then (s.1, cache, s.2)
  else (s.1, updResidual (updJacobian (updStability (updEchelon cache))), s.2)

/-- C8: `ResidualFunction::update` and `updateSkipJacobian` (the flag
`needJ` selects the entry point) return a status carrying the
per-callback outcome; the status fails exactly when some callback
failed, in which case the call returns immediately after the failed
callback — the later callbacks are not invoked — and none of the cached
state is updated; when all callbacks succeed, all three were invoked and
the four cached-state updates run in order. -/
theorem c8_residual_update_failure {α : Type} (fcb hcb vcb : Bool → Bool)
    (needJ : Bool) (cache : α)
    (updEchelon updStability updJacobian updResidual : α → α) :
    ((residualUpdate fcb hcb vcb needJ cache
        updEchelon updStability updJacobian updResidual).1.ok
      = (fcb needJ && hcb needJ && vcb needJ))
    ∧ ((residualUpdate fcb hcb vcb needJ cache
          updEchelon updStability updJacobian updResidual).1.ok = false →
        (residualUpdate fcb hcb vcb needJ cache
          updEchelon updStability updJacobian updResidual).2.1 = cache)
    ∧ (fcb needJ = false →
        (residualUpdate fcb hcb vcb needJ cache
          updEchelon updStability updJacobian updResidual).2.2 = [0]
        ∧ (residualUpdate fcb hcb vcb needJ cache
            updEchelon updStability updJacobian updResidual).1.f = false)
    ∧ (fcb needJ = true → hcb needJ = false →
        (residualUpdate fcb hcb vcb needJ cache
          updEchelon updStability updJacobian updResidual).2.2 = [0, 1]
        ∧ (residualUpdate fcb hcb vcb needJ cache
            updEchelon updStability updJacobian updResidual).1.h = false)
    ∧ (fcb needJ = true → hcb needJ = true → vcb needJ = false →
        (residualUpdate fcb hcb vcb needJ cache
          updEchelon updStability updJacobian updResidual).2.2 = [0, 1, 2]
        ∧ (residualUpdate fcb hcb vcb needJ cache
            updEchelon updStability updJacobian updResidual).1.v = false)
    ∧ ((residualUpdate fcb hcb vcb needJ cache
          updEchelon updStability updJacobian updResidual).1.ok = true →
        (residualUpdate fcb hcb vcb needJ cache
          updEchelon updStability updJacobian updResidual).2.1
            = updResidual (updJacobian (updStability (updEchelon cache)))
        ∧ (residualUpdate fcb hcb vcb needJ cache
            updEchelon updStability updJacobian updResidual).2.2
              = [0, 1, 2]) := by
  rcases hf : fcb needJ <;> rcases hh : hcb needJ <;> rcases hv : vcb needJ <;>
    simp [residualUpdate, updateFunctionEvals, UpdateStatus.ok, hf, hh, hv]

theorem c8_residual_update_failure_witness :
    ((residualUpdate (fun _ => true) (fun _ => false) (fun _ => true) true
        (0 : ℕ) id id id id).2.1 = 0)
    ∧ ((residualUpdate (fun _ => true) (fun _ => false) (fun _ => true) true
        (0 : ℕ) id id id id).2.2 = [0, 1]) := by
  have h := c8_residual_update_failure (fun _ => true) (fun _ => false)
    (fun _ => true) true (0 : ℕ) id id id id
  exact ⟨h.2.1 (by simp [residualUpdate, updateFunctionEvals, UpdateStatus.ok]),
    (h.2.2.2.1 rfl rfl).1⟩
